import Mathlib

/-!
# Verification of the KSS comment parser (`lib/parse.js`)

A shallow embedding of the `kss/lib/parse` module: the comment-block
extractor (`findBlocks`), the per-block section parser (`parseChunk`),
the reference detector (`checkReference`), the labeled-property extractor
(`processProperty` / `hasPrefix`) and the modifier/parameter builders
(`createModifiers` / `createParameters`).

Strings are modelled as `List Char`.  The JavaScript regular expressions
used by the source are each translated to a dedicated recursive function;
the translation notes next to each definition record the regex being
modelled and the (deterministic) backtracking analysis that justifies the
functional form.  External capabilities (the `marked` Markdown renderer
and `natural.Metaphone.compare`) are passed in as function-valued fields
of the options record, mirroring how the source consumes them as opaque
library calls.
-/

set_option autoImplicit false

namespace KssParse

/-- Strings of the JavaScript source, modelled as lists of characters. -/
abbrev Str := List Char

/-- Convert a Lean string literal to the `List Char` model. -/
def strL (s : String) : Str := s.toList

/-- JavaScript `\s` (whitespace class), over the ASCII range used by the
source: space, tab, newline, carriage return, vertical tab, form feed. -/
def jsWs (c : Char) : Bool :=
  c == ' ' || c == '\t' || c == '\n' || c == '\r' || c == '\x0b' || c == '\x0c'

/-- `String.prototype.toLowerCase` (ASCII). -/
def lowerStr (s : Str) : Str := s.map Char.toLower

/-- JS `replace(/\r\n/g, '\n').replace(/\r/g, '\n')`: normalize Windows and
classic-Mac line endings to `\n`.  The two sequential global replaces are
fused into one scan (a `\r` not followed by `\n` is rewritten by the second
replace; a `\r\n` pair by the first). -/
def normalizeNl : Str → Str
  | [] => []
  | '\r' :: '\n' :: rest => '\n' :: normalizeNl rest
  | '\r' :: rest => '\n' :: normalizeNl rest
  | c :: rest => c :: normalizeNl rest

/-- Index of the last `'\n'` in a list, if any. -/
def lastNlPos : Str → Option Nat
  | [] => none
  | c :: rest =>
      match lastNlPos rest with
      | some i => some (i + 1)
      | none => if c == '\n' then some 0 else none

/-- One match attempt of `\s+\n` (greedy, as used inside `/\n\s+\n/g`)
at the start of `rest`: the greedy `\s+` backtracks until the final
character matched is a `'\n'`, so a successful match consumes `p + 1`
characters where `p ≥ 1` is the largest index inside the leading
whitespace run holding `'\n'`.  Returns the remainder after the match. -/
def nlWsMatch (rest : Str) : Option Str :=
  let w := List.takeWhile jsWs rest
  match lastNlPos w with
  | some p => if 1 ≤ p then some (rest.drop (p + 1)) else none
  | none => none

/-- JS `replace(/\n\s+\n/g, '\n\n')` (collapse whitespace-only lines),
with JS global-replace semantics: scan left to right, and after a match
continue immediately after it.  Fuel-driven so the recursion is
structural; each step consumes at least one character, so fuel
`s.length` always suffices. -/
def collapseGo : Nat → Str → Str
  | 0, s => s
  | _ + 1, [] => []
  | fuel + 1, '\n' :: rest =>
      match nlWsMatch rest with
      | some rest2 => '\n' :: '\n' :: collapseGo fuel rest2
      | none => '\n' :: collapseGo fuel rest
  | fuel + 1, c :: rest => c :: collapseGo fuel rest

/-- JS `replace(/\n\s+\n/g, '\n\n')`. -/
def collapseBlank (s : Str) : Str := collapseGo s.length s

/-- Drop a trailing whitespace run (JS `replace(/\s*$/, '')`). -/
def dropTrailingWs (s : Str) : Str := (s.reverse.dropWhile jsWs).reverse

/-- JS `replace(/^\s+|\s+$/g, '')` and `String.prototype.trim`:
strip leading and trailing whitespace. -/
def trimWs (s : Str) : Str := dropTrailingWs (s.dropWhile jsWs)

/-- Strip leading and trailing `'\n'` runs
(JS `replace(/^\n+/, '').replace(/\n+$/, '')`, applied to comment blocks). -/
def trimNlEnds (s : Str) : Str :=
  ((s.dropWhile (fun c => c == '\n')).reverse.dropWhile (fun c => c == '\n')).reverse

/-- Prepend a character to the first element of a split-accumulator. -/
def consHead (c : Char) : List Str → List Str
  | [] => [[c]]
  | p :: ps => (c :: p) :: ps

/-- JS `split('\n\n')` (also the behaviour of `split(/\n|$/g)` is covered
by `splitNl` below): non-overlapping left-to-right splitting on the
two-character separator. -/
def splitPar : Str → List Str
  | [] => [[]]
  | '\n' :: '\n' :: rest => [] :: splitPar rest
  | c :: rest => consHead c (splitPar rest)

/-- JS `split('\n')`.  The source's `split(/\n|$/g)` behaves identically:
the `$` alternative can only match at the very end, a position the split
loop never tests. -/
def splitNl : Str → List Str
  | [] => [[]]
  | '\n' :: rest => [] :: splitNl rest
  | c :: rest => consHead c (splitNl rest)

/-- One `foldr` step of `split(/\s+/)`: the Boolean records whether the
character to the right was whitespace (so that a whole whitespace run
opens exactly one new field). -/
def swStep (c : Char) : Bool × List Str → Bool × List Str
  | (rightWs, fs) =>
      if jsWs c then (true, if rightWs then fs else [] :: fs)
      else (false, consHead c fs)

/-- JS `split(/\s+/)`: fields between maximal whitespace runs, keeping
empty boundary fields (e.g. `" a"` splits to `["", "a"]`). -/
def splitWsF (s : Str) : List Str := (s.foldr swStep (false, [[]])).2

/-- Join a list of strings with a separator (JS `Array.prototype.join`). -/
def joinSep (sep : Str) : List Str → Str
  | [] => []
  | [x] => x
  | x :: xs => x ++ sep ++ joinSep sep xs

/-- Concatenate the images of a function over a list (used to state what a
run of the extractor loop appends to the current block). -/
def catMap (f : Str → Str) : List Str → Str
  | [] => []
  | x :: xs => f x ++ catMap f xs

/-- Boolean prefix test on `List Char`. -/
def isPre : Str → Str → Bool
  | [], _ => true
  | _ :: _, [] => false
  | c :: p, d :: s => c == d && isPre p s

/-- JS `String.prototype.replace` with a *string* pattern: remove the first
occurrence of `p` (no-op insertion semantics when `p` is empty, matching
`s.replace('', '') = s`). -/
def replaceFirstOcc (p : Str) : Str → Str
  | [] => []
  | s@(c :: rest) => if isPre p s then s.drop p.length else c :: replaceFirstOcc p rest

/-- JS `replace(new RegExp('^' + indentAmount), '')` where `indentAmount`
is a captured literal whitespace run (whitespace characters are not regex
metacharacters, so the compiled regex is a literal anchored prefix):
remove exactly one occurrence of the prefix, or leave the line unmodified. -/
def replacePrefixOnce (p s : Str) : Str :=
  if isPre p s then s.drop p.length else s

/-- Replace `'\n'` by `' '` (JS `replace(/\n/g, ' ')`, header flattening). -/
def flattenNl (s : Str) : Str := s.map (fun c => if c == '\n' then ' ' else c)

/-- Does the string contain two consecutive newlines
(JS `match(/\n{2,}/)` as a Boolean test)? -/
def hasDoubleNl : Str → Bool
  | [] => false
  | _ :: [] => false
  | c :: d :: rest => (c == '\n' && d == '\n') || hasDoubleNl (d :: rest)

/-! ## The comment-block extractor (`findBlocks`)

A state machine over lines, exactly mirroring the loop in `findBlocks`:
the state carries the flushed blocks, the block being accumulated, the
captured indentation baseline of a generic multi-line block, and the
three `inside*` flags. -/

/-- JS `commentExpressions.single = /^\s*\/\/.*$/`: optional whitespace,
then `//`, then anything. -/
def isSingleLine (l : Str) : Bool := isPre (strL "//") (l.dropWhile jsWs)

/-- JS `replace(/^\s*\/\/\s?/, '')`: strip the line-comment marker and at
most one following whitespace character; a non-matching line is left
unchanged. -/
def stripSingleMarker (l : Str) : Str :=
  let r := l.dropWhile jsWs
  if isPre (strL "//") r then
    match r.drop 2 with
    | c :: rest => if jsWs c then rest else c :: rest
    | [] => []
  else l

/-- JS `commentExpressions.docblockStart = /^\s*\/\*\*\s*$/`. -/
def isDocStart (l : Str) : Bool :=
  let r := l.dropWhile jsWs
  isPre (strL "/**") r && (r.drop 3).all jsWs

/-- JS `commentExpressions.multiStart = /^\s*\/\*+\s*$/`. -/
def isMultiStart (l : Str) : Bool :=
  match l.dropWhile jsWs with
  | '/' :: rest =>
      decide (rest.takeWhile (fun c => c == '*') ≠ []) &&
        (rest.dropWhile (fun c => c == '*')).all jsWs
  | _ => false

/-- JS `commentExpressions.multiFinish = /^\s*\*\/\s*$/`. -/
def isMultiFinish (l : Str) : Bool :=
  match l.dropWhile jsWs with
  | '*' :: '/' :: rest => rest.all jsWs
  | _ => false

/-- JS `replace(/^\s*\*\s?/, '')`: strip a doc-block alignment `*` and at
most one following whitespace character; non-matching lines unchanged. -/
def stripDocMarker (l : Str) : Str :=
  match l.dropWhile jsWs with
  | '*' :: rest =>
      match rest with
      | c :: r2 => if jsWs c then r2 else c :: r2
      | [] => []
  | _ => l

/-- State of the `findBlocks` line loop. -/
structure FBState where
  blocks : List Str
  currentBlock : Str
  indentAmount : Option Str
  insideSingleBlock : Bool
  insideMultiBlock : Bool
  insideDocblock : Bool
deriving DecidableEq

/-- Initial state of the `findBlocks` loop. -/
def fbInit : FBState :=
  { blocks := [], currentBlock := [], indentAmount := none,
    insideSingleBlock := false, insideMultiBlock := false, insideDocblock := false }

/-- One iteration of the `findBlocks` loop body, for one raw line.
The branch order mirrors the source: trailing-space strip; single-line
comment accumulation; flushing a pending single-line run; multi/doc
block close; doc-block open; doc-block interior; multi-block open;
multi-block interior (with one-time indentation capture). -/
def fbStep (st : FBState) (rawLine : Str) : FBState :=
  let line := dropTrailingWs rawLine
  if !st.insideMultiBlock && !st.insideDocblock && isSingleLine line then
    { st with
        currentBlock :=
          st.currentBlock ++
            (if st.insideSingleBlock && st.currentBlock ≠ [] then ['\n'] else []) ++
            stripSingleMarker line,
        insideSingleBlock := true }
  else
    -- The current line is not part of a single-line run: flush any pending
    -- run, then keep processing the same line.
    let st :=
      if st.insideSingleBlock then
        { st with blocks := st.blocks ++ [trimNlEnds st.currentBlock],
                  insideSingleBlock := false, currentBlock := [] }
      else st
    if (st.insideMultiBlock || st.insideDocblock) && isMultiFinish line then
      { st with blocks := st.blocks ++ [trimNlEnds st.currentBlock],
                insideMultiBlock := false, insideDocblock := false,
                currentBlock := [], indentAmount := none }
    else if isDocStart line then
      { st with insideDocblock := true, currentBlock := [] }
    else if st.insideDocblock then
      { st with currentBlock := st.currentBlock ++ '\n' :: stripDocMarker line }
    else if isMultiStart line then
      { st with insideMultiBlock := true, currentBlock := [] }
    else if st.insideMultiBlock then
      match st.indentAmount with
      | none =>
          -- First interior line: skip initial blank lines, then capture the
          -- indentation baseline and strip it from this very line.
          if line = [] then st
          else
            let b := line.takeWhile jsWs
            { st with indentAmount := some b,
                      currentBlock := st.currentBlock ++ '\n' :: replacePrefixOnce b line }
      | some b =>
          { st with currentBlock := st.currentBlock ++ '\n' :: replacePrefixOnce b line }
    else st

/-- Run the `findBlocks` loop over a list of lines. -/
def fbGo (st : FBState) (lines : List Str) : FBState := lines.foldl fbStep st

/-- After the loop: `if (currentBlock) blocks.push(...)` — flush a
non-empty accumulated block (an unterminated comment is kept). -/
def fbFinish (st : FBState) : List Str :=
  if st.currentBlock ≠ [] then st.blocks ++ [trimNlEnds st.currentBlock] else st.blocks

/-- `findBlocks(input)`: normalize line endings, split into lines, run the
state machine, flush the final block. -/
def findBlocks (input : Str) : List Str :=
  fbFinish (fbGo fbInit (splitNl (normalizeNl input)))

/-! ## Options

The parse options, after `parse()` has applied its defaults.  The two code
paths of the external `marked` renderer (block-level, and the
inline renderer whose `paragraph` emits no wrapper) and the external
`natural.Metaphone.compare` are function-valued capabilities. -/

/-- Parsing options (`options` in the source, defaults already applied). -/
structure Options where
  markdown : Bool
  header : Bool
  typos : Bool
  custom : List Str
  markedBlock : Str → Str
  markedInline : Str → Str
  metaphoneEq : Str → Str → Bool

/-! ## The labeled-property extractor (`hasPrefix` / `processProperty`) -/

/-- Case-insensitive (regex `i` flag) strip of a name from the front of a
string; `none` when the string does not start with the name. -/
def dropCaseName : Str → Str → Option Str
  | [], s => some s
  | _ :: _, [] => none
  | c :: nm, d :: s => if c.toLower == d.toLower then dropCaseName nm s else none

/-- Does `\s*` + `nm` + `':'` match at the start of `s`?  The greedy `\s*`
is deterministic here because every label starts with a non-whitespace
character. -/
def labelHere (nm s : Str) : Bool :=
  match dropCaseName nm (s.dropWhile jsWs) with
  | some (':' :: _) => true
  | _ => false

/-- JS `(new RegExp('^\\s*' + prefix + '\\:', 'gmi')).test(description)`:
with the `m` flag, `^` anchors at the string start and after every `'\n'`;
the Boolean tracks whether the current position is such an anchor.
A match whose `\s*` spans a newline is subsumed by the later anchor it
spans, so existence is unchanged by letting `\s*` run from each anchor. -/
def labelTestGo (nm : Str) : Str → Bool → Bool
  | [], atStart => atStart && labelHere nm []
  | s@(c :: r), atStart => (atStart && labelHere nm s) || labelTestGo nm r (c == '\n')

/-- One match attempt of `^\s*nm\:\s+?` (the *value* regex of
`processProperty`): the lazy `\s+?` consumes exactly one whitespace
character.  Returns that character (needed to know whether the position
after the match is a line start) and the remainder. -/
def labelValTry (nm s : Str) : Option (Char × Str) :=
  match dropCaseName nm (s.dropWhile jsWs) with
  | some (':' :: c :: rest) => if jsWs c then some (c, rest) else none
  | _ => none

/-- JS `replace(new RegExp('^\\s*' + nm + '\\:\\s+?', 'gmi'), '')`:
delete every anchored label occurrence, resuming the scan right after
each deletion.  Fuel-driven (each step consumes at least one character,
so `s.length + 1` always suffices). -/
def stripLabelGo (nm : Str) : Nat → Str → Bool → Str
  | 0, s, _ => s
  | fuel + 1, s, atStart =>
      match (if atStart then labelValTry nm s else none) with
      | some (c, rest) => stripLabelGo nm fuel rest (c == '\n')
      | none =>
          match s with
          | [] => []
          | c :: r => c :: stripLabelGo nm fuel r (c == '\n')

/-- The value captured for a matching property paragraph. -/
def stripLabelAll (nm s : Str) : Str := stripLabelGo nm (s.length + 1) s true

/-- One match attempt of `^\s*([a-z ]*):` (the fuzzy label scan of
`hasPrefix`, flags `gmi`): greedy `\s*`, then letters/spaces, then `':'`.
Returns the full matched text. -/
def fuzzyTryAt (s : Str) : Option Str :=
  let w := s.takeWhile jsWs
  let r := s.dropWhile jsWs
  let ltr := r.takeWhile (fun c => c.isAlpha || c == ' ')
  match r.dropWhile (fun c => c.isAlpha || c == ' ') with
  | ':' :: _ => some (w ++ ltr ++ [':'])
  | _ => none

/-- First (leftmost-anchor) match of `^\s*([a-z ]*):` in multiline mode,
i.e. `words[0]` of `description.match(/^\s*([a-z ]*):/gmi)`. -/
def firstFuzzyLabel : Str → Bool → Option Str
  | [], atStart => if atStart then fuzzyTryAt [] else none
  | s@(c :: r), atStart =>
      match (if atStart then fuzzyTryAt s else none) with
      | some m => some m
      | none => firstFuzzyLabel r (c == '\n')

/-- `hasPrefix(description, options, prefix)`: anchored label test, or,
with `options.typos`, a Metaphone comparison of the first fuzzy label
word (with its first `':'` removed) against the prefix. -/
def hasPrefixB (opts : Options) (pfx : Str) (description : Str) : Bool :=
  if !opts.typos then labelTestGo pfx description true
  else
    match firstFuzzyLabel (description.dropWhile jsWs) true with
    | none => false
    | some w => opts.metaphoneEq (replaceFirstOcc [':'] w) pfx

/-- The `paragraphs.map` loop of `processProperty`: every matching
paragraph overwrites both the captured value and the index to remove, so
the *last* match wins. -/
def ppGo (nm : Str) (opts : Options) :
    List Str → Nat → Option Str → Option Nat → Option Str × Option Nat
  | [], _, v, idx => (v, idx)
  | p :: rest, i, v, idx =>
      if hasPrefixB opts nm p then
        ppGo nm opts rest (i + 1) (some (stripLabelAll nm p)) (some i)
      else ppGo nm opts rest (i + 1) v idx

/-- `processProperty(propertyName, paragraphs, options, ...)`: scan all
paragraphs, then `splice` out the recorded index.  Returns the captured
raw value (the numeric normalisation applied to `Weight` operates on IEEE
doubles and is deliberately left uninterpreted — no verified property
depends on it) and the updated paragraph list. -/
def processProperty (propertyName : Str) (ps : List Str) (opts : Options) :
    Option Str × List Str :=
  let nm := lowerStr propertyName
  let r := ppGo nm opts ps 0 none none
  (r.1, match r.2 with | none => ps | some i => ps.eraseIdx i)

/-- `options.custom.forEach(...)`: extract each caller-declared custom
property in order, accumulating the matched `(lowercased name, value)`
pairs. -/
def processCustoms (opts : Options) : List Str → List Str → List (Str × Str) × List Str
  | [], ps => ([], ps)
  | name :: names, ps =>
      let r := processProperty name ps opts
      let rest := processCustoms opts names r.2
      ((match r.1 with
        | some v => [(lowerStr name, v)]
        | none => []) ++ rest.1, rest.2)

/-! ## The reference detector (`checkReference`) -/

/-- JS `value.replace(/[-:]?$/, '')`: strip exactly one trailing `'-'` or
`':'`, if present. -/
def stripRefPunct (s : Str) : Str :=
  match s.reverse with
  | c :: r => if c == '-' || c == ':' then r.reverse else s
  | [] => []

/-- The keyword test applied to each of the two candidate words of
`checkReference`: exact case-insensitive equality with `"styleguide"`
after punctuation stripping, or (under `options.typos`) Metaphone
equality with `'Styleguide'` after additionally removing the first
`'-'` (JS `value.replace('-', '')`). -/
def refWordMatch (opts : Options) (w : Str) : Bool :=
  let v := stripRefPunct w
  (lowerStr v == strL "styleguide") ||
    (opts.typos && opts.metaphoneEq (strL "Styleguide") (replaceFirstOcc ['-'] v))

/-- `checkReference(paragraphs, options)`.  Indexing
`paragraphs[paragraphs.length - 1]` on an empty array yields `undefined`,
and the subsequent `.trim()` throws a `TypeError`; this is modelled by
the `Except.error` branch.  Otherwise the `forEach` over
`[words[0], words[0] + words[1]]` with its `keyword` state linearises to
the two-candidate cascade below; `keyword ? words.join(' ') : false`
keeps the final truthiness test on the shifted keyword. -/
def checkReference (paragraphs : List Str) (opts : Options) : Except Unit (Option Str) :=
  match paragraphs.getLast? with
  | none => Except.error ()
  | some lp0 =>
      let lastParagraph := trimWs lp0
      let words := splitWsF lastParagraph
      if words.length < 2 then Except.ok none
      else if refWordMatch opts (words.headD []) then
        let keyword := words.headD []
        Except.ok (if keyword ≠ [] then some (joinSep [' '] (words.drop 1)) else none)
      else if refWordMatch opts (words.headD [] ++ words.getD 1 []) then
        let keyword := words.headD [] ++ ' ' :: words.getD 1 []
        Except.ok (if keyword ≠ [] then some (joinSep [' '] (words.drop 2)) else none)
      else Except.ok none

/-- The reference detector as described by the specification: absent when
the last paragraph has fewer than two whitespace-separated words;
otherwise, when the first word or the concatenation of the first two
words passes the keyword test, the remaining words rejoined with single
spaces; absent in all other cases. -/
def detectReferenceSpec (opts : Options) (ps : List Str) : Option Str :=
  let words := splitWsF (trimWs ((ps.getLast?).getD []))
  if words.length < 2 then none
  else if refWordMatch opts (words.headD []) then some (joinSep [' '] (words.drop 1))
  else if refWordMatch opts (words.headD [] ++ words.getD 1 []) then
    some (joinSep [' '] (words.drop 2))
  else none

/-! ## The modifier-paragraph scan and the entry builders -/

/-- Does `\s+\-\s` match at the start of `s`?  (Also the start-match
condition of the builder's split regex `\s+\-\s+`: both need at least one
whitespace character after the hyphen.)  The greedy `\s+` is
deterministic because `'-'` is not a whitespace character, so the
backtracking search resolves to: a non-empty whitespace run, then `'-'`,
then one whitespace character. -/
def wsHyphenAt (s : Str) : Bool :=
  decide (s.takeWhile jsWs ≠ []) &&
    (match s.dropWhile jsWs with
     | '-' :: c :: _ => jsWs c
     | _ => false)

/-- Does `\s+\-\s` match anywhere in `s`? -/
def hasWsHyphen : Str → Bool
  | [] => false
  | s@(_ :: r) => wsHyphenAt s || hasWsHyphen r

/-- JS `match(/^\s*.+?\s+\-\s/g)` as a Boolean test: since the lazy `.+?`
matches any characters (including whitespace), the line matches exactly
when `\s+\-\s` occurs at some position ≥ 1. -/
def isModifierLine : Str → Bool
  | [] => false
  | _ :: r => hasWsHyphen r

/-- The modifier-candidacy loop of `parseChunk`, in explicit-state form.
The source mutates the line array in place; here `front` holds the
(augmented) entries strictly before index `lastModifier`, `cur` the entry
at `lastModifier`, and `mid` the blanked continuation slots between
`lastModifier` and the loop index `j`.  A matching line closes the open
entry; a non-matching line is trimmed and space-appended to the open
entry, leaving a blank slot behind. -/
def mpGo (front : List Str) (cur : Str) (mid : List Str) : List Str → List Str
  | [] => front ++ cur :: mid
  | l :: ls =>
      if isModifierLine l then mpGo (front ++ cur :: mid) l [] ls
      else mpGo front (cur ++ ' ' :: trimWs l) (mid ++ [[]]) ls

/-- The whole modifier-candidacy pass: returns `hasModifiers` and the
line array after the loop and the `filter(line => line !== '')`.
When the first line fails the pattern the loop bails out immediately
(`hasModifiers = false`); the filtered array is discarded by the caller
in that case, exactly as in the source. -/
def modifierPass : List Str → Bool × List Str
  | [] => (true, [])
  | l0 :: ls =>
      if isModifierLine l0 then
        (true, (mpGo [] l0 [] ls).filter (fun l => decide (l ≠ [])))
      else (false, (l0 :: ls).filter (fun l => decide (l ≠ [])))

/-- The effect of the candidacy loop on a first-line-matching paragraph,
as the specification describes it: each matching line starts a new entry;
each non-matching line is trimmed and space-joined onto the most recently
matched entry and removed from the list. -/
def joinContSpec (cur : Str) : List Str → List Str
  | [] => [cur]
  | l :: ls =>
      if isModifierLine l then cur :: joinContSpec l ls
      else joinContSpec (cur ++ ' ' :: trimWs l) ls

/-- The first field of JS `entry.split(/\s+\-\s+/, 1)`: the characters
strictly before the first position where the separator matches. -/
def entryName : Str → Str
  | [] => []
  | s@(c :: r) => if wsHyphenAt s then [] else c :: entryName r

/-- JS `replace(/^\s+\-\s+/, '')`: strip one leading separator
(non-empty whitespace run, `'-'`, then a greedy non-empty whitespace
run), or leave the string unchanged. -/
def stripLeadingSep (s : Str) : Str :=
  if wsHyphenAt s then
    match s.dropWhile jsWs with
    | '-' :: rest => rest.dropWhile jsWs
    | _ => s
  else s

/-- `createModifiers(lines, options)`: split each line into a name (the
left part, as split — *not* trimmed) and a description (first occurrence
of the name removed as a string, then the leading separator stripped),
optionally rendering the description with the inline renderer. -/
def createModifiers (lines : List Str) (opts : Options) : List (Str × Str) :=
  lines.map (fun entry =>
    let modifier := entryName entry
    let description := stripLeadingSep (replaceFirstOcc modifier entry)
    (modifier, if opts.markdown then opts.markedInline description else description))

/-- `createParameters(lines, options)`: identical to `createModifiers`
(the source duplicates the body). -/
def createParameters (lines : List Str) (opts : Options) : List (Str × Str) :=
  lines.map (fun entry =>
    let parameter := entryName entry
    let description := stripLeadingSep (replaceFirstOcc parameter entry)
    (parameter, if opts.markdown then opts.markedInline description else description))

/-! ## The per-block section parser (`parseChunk` loop body) -/

/-- A finished section record, with the fields as stored by the
`KssSection` constructor (`markup` is `data.markup || ''`, so a missing
property and an extracted-empty value both read back as `[]`; the raw
pre-normalisation `Weight` value is kept in `weightRaw`; matched custom
properties are kept as ordered name/value pairs). -/
structure Section where
  raw : Str
  header : Str
  description : Str
  modifiers : List (Str × Str)
  parameters : List (Str × Str)
  markup : Str
  weightRaw : Option Str
  reference : Str
  deprecated : Bool
  experimental : Bool
  custom : List (Str × Str)
deriving DecidableEq, Inhabited

/-- Lines 115–120 of the source: split a raw block into paragraphs
(normalize line endings, collapse whitespace-only lines, trim, split on
blank lines). -/
def blockParagraphs (block : Str) : List Str :=
  splitPar (trimWs (collapseBlank (normalizeNl block)))

/-- The property-extraction phase of the loop body: `Markup`, `Weight`,
then the caller-declared custom properties, each removing its matched
paragraph.  Returns `(markup, weight, customs, remaining paragraphs)`. -/
def blockPrepared (opts : Options) (block : Str) :
    Option Str × Option Str × List (Str × Str) × List Str :=
  let ps := blockParagraphs block
  let m := processProperty (strL "Markup") ps opts
  let w := processProperty (strL "Weight") m.2 opts
  let c := processCustoms opts opts.custom w.2
  (m.1, w.1, c.1, c.2)

/-- The `checkReference(...) || ''` value of a block (an error when the
property phase consumed every paragraph). -/
def blockRef (opts : Options) (block : Str) : Except Unit Str :=
  (checkReference (blockPrepared opts block).2.2.2 opts).map (fun r => r.getD [])

/-- The header/description/modifier part of the loop body for a block
with three or more remaining paragraphs, operating on the approximate
description (all but the last two paragraphs, joined by blank lines) and
the candidate modifier paragraph.  `markupS` is the stored markup string
(`if (currSection.markup)` is truthiness, i.e. non-emptiness). -/
def processModifierParagraph (opts : Options) (markupS : Str) (desc modPara : Str) :
    Str × List (Str × Str) × List (Str × Str) :=
  let mp := modifierPass (splitNl modPara)
  if mp.1 then
    if markupS ≠ [] then (desc, createModifiers mp.2 opts, [])
    else (desc, [], createParameters mp.2 opts)
  else (desc ++ strL "\n\n" ++ modPara, [], [])

/-- Header, description, modifiers and parameters after the
paragraph-count dispatch. -/
structure Core where
  hdr : Str
  dsc : Str
  mods : List (Str × Str)
  params : List (Str × Str)

/-- The paragraph-count dispatch (lines 139–192): one paragraph is just
the reference; two are a header plus the reference; three or more get the
modifier-candidacy scan on the second-to-last paragraph. -/
def sectionCore (opts : Options) (markupS : Str) (p3 : List Str) (ref : Str) : Core :=
  if p3.length = 1 then
    { hdr := ref, dsc := [], mods := [], params := [] }
  else if p3.length = 2 then
    { hdr := p3.headD [], dsc := p3.headD [], mods := [], params := [] }
  else
    let desc0 := joinSep (strL "\n\n") (p3.take (p3.length - 2))
    let t := processModifierParagraph opts markupS desc0 (p3.getD (p3.length - 2) [])
    { hdr := p3.headD [], dsc := t.1, mods := t.2.1, params := t.2.2 }

/-- One attempt of the lazy search `^.*?\n{2,}` (header separation):
`.` does not match `'\n'` and the regex is anchored, so a match exists
exactly when the first `'\n'` of the string is immediately followed by a
second one; on success the greedy `\n{2,}` consumes the whole newline
run.  Returns the remainder after the removed prefix. -/
def hsGo : Str → Option Str
  | [] => none
  | [_] => none
  | c :: d :: rest =>
      if c = '\n' then
        if d = '\n' then some (List.dropWhile (fun x => x == '\n') rest) else none
      else hsGo (d :: rest)

/-- JS `description.replace(/^.*?\n{2,}/, '')`. -/
def stripFirstParagraph (d : Str) : Str :=
  match hsGo d with
  | some r => r
  | none => d

/-- Lines 203–209: when a separate header is requested, drop the leading
paragraph from the description — via the regex above — or empty the
description when it has no blank-line boundary. -/
def applyHeaderOption (opts : Options) (d : Str) : Str :=
  if opts.header then
    if hasDoubleNl d then stripFirstParagraph d else []
  else d

/-- Lines 212–214: optional block-level Markdown rendering. -/
def applyMarkdown (opts : Options) (d : Str) : Str :=
  if opts.markdown then opts.markedBlock d else d

/-- Assemble the finished section for an accepted block (lines 139–218):
dispatch, header flattening, status flags (computed on the pre-separation
description), header separation, Markdown rendering. -/
def buildSection (opts : Options) (raw : Str) (p3 : List Str)
    (markupV weightV : Option Str) (customVs : List (Str × Str)) (ref : Str) : Section :=
  let markupS := markupV.getD []
  let core := sectionCore opts markupS p3 ref
  { raw := raw
    header := flattenNl core.hdr
    description := applyMarkdown opts (applyHeaderOption opts core.dsc)
    modifiers := core.mods
    parameters := core.params
    markup := markupS
    weightRaw := weightV
    reference := ref
    deprecated := hasPrefixB opts (strL "Deprecated") core.dsc
    experimental := hasPrefixB opts (strL "Experimental") core.dsc
    custom := customVs }

/-- The whole loop body of `parseChunk` for one comment block:
`Except.ok none` is the `continue` for a block without a style guide
reference; `Except.error ()` is the `TypeError` thrown by
`checkReference` when the paragraph list has become empty. -/
def processBlock (opts : Options) (block : Str) : Except Unit (Option Section) :=
  let prep := blockPrepared opts block
  match checkReference prep.2.2.2 opts with
  | Except.error e => Except.error e
  | Except.ok refOpt =>
      let ref := refOpt.getD []
      if ref = [] then Except.ok none
      else Except.ok (some (buildSection opts block prep.2.2.2 prep.1 prep.2.1 prep.2.2.1 ref))

/-- The `for` loop of `parseChunk` over the extracted blocks,
accumulating sections; an error aborts the whole parse. -/
def parseChunkGo (opts : Options) : List Str → List Section → Except Unit (List Section)
  | [], acc => Except.ok acc
  | b :: bs, acc =>
      match processBlock opts b with
      | Except.error e => Except.error e
      | Except.ok none => parseChunkGo opts bs acc
      | Except.ok (some s) => parseChunkGo opts bs (acc ++ [s])

/-- `parseChunk(styleGuide, input, options)` restricted to the sections
it appends for one input text. -/
def parseChunk (opts : Options) (input : Str) : Except Unit (List Section) :=
  parseChunkGo opts (findBlocks input) []

/-- The sections of a parse result (empty on error); used to name
concrete sections in closed statements. -/
def exSections : Except Unit (List Section) → List Section
  | Except.ok l => l
  | Except.error _ => []

/-- Concrete options used in closed statements: Markdown off, header
separation on, no fuzzy matching, no custom properties, identity
renderers and a vacuous phonetic comparator. -/
def opts0 : Options :=
  { markdown := false, header := true, typos := false, custom := [],
    markedBlock := id, markedInline := id, metaphoneEq := fun _ _ => false }

/-- A block whose single paragraph is entirely consumed by the `Markup`
property extraction. -/
def inputMarkupOnly : Str := strL "// Markup: x"

/-- A section whose description's first paragraph spans two lines. -/
def inputMultiHdr : Str := strL "// A\n// B\n//\n// C\n//\n// styleguide 1"

/-- The single section parsed from `inputMultiHdr`. -/
def sectionMultiHdr : Section := (exSections (parseChunk opts0 inputMultiHdr)).headD default

/-- A plain single-line-comment section. -/
def inputButton : Str := strL "// Button\n//\n// styleguide 1"

/-- The single section parsed from `inputButton`. -/
def sectionButton : Section := (exSections (parseChunk opts0 inputButton)).headD default

/-- A full section with markup and a modifiers paragraph. -/
def inputButtons : Str :=
  strL "// Buttons\n//\n// Description text\n//\n// :hover - Subtle hover\n// :disabled - Dims the button\n//\n// Markup: <div></div>\n//\n// styleguide 2.1.1"

/-- The single section parsed from `inputButtons`. -/
def sectionButtons : Section := (exSections (parseChunk opts0 inputButtons)).headD default

/-- A comment block with no style guide reference. -/
def blockNoRef : Str := strL "hello world"

/-- The result section of a per-block parse (default on skip/error);
used to name concrete sections of `processBlock` in closed statements. -/
def exSection : Except Unit (Option Section) → Section
  | Except.ok (some s) => s
  | _ => default

/-- A pre-extracted comment block. -/
def blockButton : Str := strL "Button\n\nstyleguide 1"

/-- The section built from `blockButton` by the per-block parser. -/
def sectionBlockButton : Section := exSection (processBlock opts0 blockButton)

/-- A loop state in the middle of an open multi-line block. -/
def stOpenMulti : FBState :=
  { blocks := [strL "x"], currentBlock := strL "\nfoo", indentAmount := some [' ', ' '],
    insideSingleBlock := false, insideMultiBlock := true, insideDocblock := false }

/-! ## Theorems -/

/-- Unfolding equation for `processBlock`. -/
theorem processBlock_eq (opts : Options) (block : Str) :
    processBlock opts block =
      match checkReference (blockPrepared opts block).2.2.2 opts with
      | Except.error e => Except.error e
      | Except.ok refOpt =>
          if refOpt.getD [] = [] then Except.ok none
          else
            Except.ok (some (buildSection opts block (blockPrepared opts block).2.2.2
              (blockPrepared opts block).1 (blockPrepared opts block).2.1
              (blockPrepared opts block).2.2.1 (refOpt.getD []))) := by
  cases hcr : checkReference (blockPrepared opts block).2.2.2 opts with
  | error e => simp only [processBlock, hcr]
  | ok refOpt => simp only [processBlock, hcr]

theorem buildSection_reference (opts : Options) (raw : Str) (p3 : List Str)
    (mv wv : Option Str) (cv : List (Str × Str)) (ref : Str) :
    (buildSection opts raw p3 mv wv cv ref).reference = ref := rfl

theorem buildSection_raw (opts : Options) (raw : Str) (p3 : List Str)
    (mv wv : Option Str) (cv : List (Str × Str)) (ref : Str) :
    (buildSection opts raw p3 mv wv cv ref).raw = raw := rfl

theorem buildSection_markup (opts : Options) (raw : Str) (p3 : List Str)
    (mv wv : Option Str) (cv : List (Str × Str)) (ref : Str) :
    (buildSection opts raw p3 mv wv cv ref).markup = mv.getD [] := rfl

theorem buildSection_modifiers (opts : Options) (raw : Str) (p3 : List Str)
    (mv wv : Option Str) (cv : List (Str × Str)) (ref : Str) :
    (buildSection opts raw p3 mv wv cv ref).modifiers =
      (sectionCore opts (mv.getD []) p3 ref).mods := rfl

theorem buildSection_parameters (opts : Options) (raw : Str) (p3 : List Str)
    (mv wv : Option Str) (cv : List (Str × Str)) (ref : Str) :
    (buildSection opts raw p3 mv wv cv ref).parameters =
      (sectionCore opts (mv.getD []) p3 ref).params := rfl

/-- With markup present, the modifier path never builds parameters. -/
theorem pmp_params_of_markup (opts : Options) (m d mp : Str) (hm : m ≠ []) :
    (processModifierParagraph opts m d mp).2.2 = [] := by
  unfold processModifierParagraph
  by_cases h1 : (modifierPass (splitNl mp)).1 <;> simp [h1, hm]

/-- With markup absent, the modifier path never builds modifiers. -/
theorem pmp_mods_of_no_markup (opts : Options) (d mp : Str) :
    (processModifierParagraph opts [] d mp).2.1 = [] := by
  unfold processModifierParagraph
  by_cases h1 : (modifierPass (splitNl mp)).1 <;> simp [h1]

theorem sectionCore_params_of_markup (opts : Options) (m : Str) (p3 : List Str) (ref : Str)
    (hm : m ≠ []) : (sectionCore opts m p3 ref).params = [] := by
  unfold sectionCore
  by_cases h1 : p3.length = 1
  · simp [h1]
  · by_cases h2 : p3.length = 2 <;> simp [h1, h2, pmp_params_of_markup _ _ _ _ hm]

theorem sectionCore_mods_of_no_markup (opts : Options) (p3 : List Str) (ref : Str) :
    (sectionCore opts [] p3 ref).mods = [] := by
  unfold sectionCore
  by_cases h1 : p3.length = 1
  · simp [h1]
  · by_cases h2 : p3.length = 2 <;> simp [h1, h2, pmp_mods_of_no_markup]

/-- Characterisation of a successful per-block parse. -/
theorem processBlock_ok_some (opts : Options) (block : Str) (s : Section)
    (h : processBlock opts block = Except.ok (some s)) :
    ∃ ref, ref ≠ [] ∧
      s = buildSection opts block (blockPrepared opts block).2.2.2
            (blockPrepared opts block).1 (blockPrepared opts block).2.1
            (blockPrepared opts block).2.2.1 ref := by
  rw [processBlock_eq] at h
  cases hcr : checkReference (blockPrepared opts block).2.2.2 opts with
  | error e => rw [hcr] at h; simp at h
  | ok refOpt =>
      rw [hcr] at h
      by_cases href : refOpt.getD [] = []
      · simp [href] at h
      · simp only [if_neg href, Except.ok.injEq, Option.some.injEq] at h
        exact ⟨refOpt.getD [], href, h.symm⟩

/-- A successful per-block parse yields a non-empty reference. -/
theorem processBlock_ref_ne (opts : Options) (block : Str) (s : Section)
    (h : processBlock opts block = Except.ok (some s)) : s.reference ≠ [] := by
  obtain ⟨ref, hne, hs⟩ := processBlock_ok_some opts block s h
  rw [hs, buildSection_reference]
  exact hne

/-- Any property of sections guaranteed by the per-block parser holds of
every section of a chunk parse. -/
theorem parseChunkGo_all (opts : Options) (P : Section → Prop)
    (hP : ∀ b s, processBlock opts b = Except.ok (some s) → P s) :
    ∀ (bs : List Str) (acc out : List Section),
      (∀ s ∈ acc, P s) → parseChunkGo opts bs acc = Except.ok out → ∀ s ∈ out, P s := by
  intro bs
  induction bs with
  | nil =>
      intro acc out hacc h s hs
      simp only [parseChunkGo, Except.ok.injEq] at h
      subst h
      exact hacc s hs
  | cons b bs ih =>
      intro acc out hacc h s hs
      unfold parseChunkGo at h
      cases hpb : processBlock opts b with
      | error e => rw [hpb] at h; simp at h
      | ok so =>
          rw [hpb] at h
          cases so with
          | none => exact ih acc out hacc h s hs
          | some s2 =>
              refine ih (acc ++ [s2]) out ?_ h s hs
              intro t ht
              rcases List.mem_append.mp ht with h1 | h2
              · exact hacc t h1
              · rw [List.mem_singleton.mp h2]
                exact hP b s2 hpb

/-- C1 (counterexample): the comment block `Markup: x` consists of a single
paragraph that the property extraction removes; `checkReference` then
indexes an empty paragraph array and throws, so the parse errors instead
of silently skipping the referenceless block. -/
theorem c1_counterexample : parseChunk opts0 inputMarkupOnly = Except.error () := rfl

/-- C1 (amended): every section of a successful parse has a non-empty
reference; a block whose (non-empty) remaining paragraphs produce an
empty reference is skipped with no error and contributes nothing to the
output sequence; but when the property phase consumes every paragraph the
parser raises an error instead. -/
theorem c1_amended :
    (∀ (opts : Options) (input : Str) (out : List Section) (s : Section),
        parseChunk opts input = Except.ok out → s ∈ out → s.reference ≠ []) ∧
    (∀ (opts : Options) (block : Str), blockRef opts block = Except.ok [] →
        processBlock opts block = Except.ok none) ∧
    (∀ (opts : Options) (block : Str) (bs : List Str) (acc : List Section),
        processBlock opts block = Except.ok none →
        parseChunkGo opts (block :: bs) acc = parseChunkGo opts bs acc) := by
  refine ⟨?_, ?_, ?_⟩
  · intro opts input out s h hs
    exact parseChunkGo_all opts (fun t => t.reference ≠ [])
      (fun b t hb => processBlock_ref_ne opts b t hb)
      (findBlocks input) [] out (by intro t ht; simp at ht) h s hs
  · intro opts block h
    unfold blockRef at h
    rw [processBlock_eq]
    cases hcr : checkReference (blockPrepared opts block).2.2.2 opts with
    | error e => rw [hcr] at h; simp [Except.map] at h
    | ok refOpt =>
        rw [hcr] at h
        simp only [Except.map, Except.ok.injEq] at h
        simp [h]
  · intro opts block bs acc h
    simp only [parseChunkGo, h]

/-- C1 (witness). -/
theorem c1_witness :
    sectionButton.reference ≠ [] ∧
    processBlock opts0 blockNoRef = Except.ok none ∧
    parseChunkGo opts0 [blockNoRef] [] = parseChunkGo opts0 [] [] := by
  refine ⟨c1_amended.1 opts0 inputButton [sectionButton] sectionButton rfl
      (by simp), c1_amended.2.1 opts0 blockNoRef (by rfl),
    c1_amended.2.2 opts0 blockNoRef [] [] (c1_amended.2.1 opts0 blockNoRef (by rfl))⟩

/-- C2 (confirmed): for every section of a successful parse, a non-empty
(truthy) markup forces an empty parameter list, and a falsy markup forces
an empty modifier list — so modifiers and parameters are never both
non-empty. -/
theorem c2_confirmed :
    ∀ (opts : Options) (input : Str) (out : List Section) (s : Section),
      parseChunk opts input = Except.ok out → s ∈ out →
      (s.markup ≠ [] → s.parameters = []) ∧ (s.markup = [] → s.modifiers = []) := by
  intro opts input out s h hs
  refine parseChunkGo_all opts
    (fun t => (t.markup ≠ [] → t.parameters = []) ∧ (t.markup = [] → t.modifiers = []))
    ?_ (findBlocks input) [] out (by intro t ht; simp at ht) h s hs
  intro b t hb
  obtain ⟨ref, hne, hteq⟩ := processBlock_ok_some opts b t hb
  constructor
  · intro hm
    rw [hteq, buildSection_parameters]
    rw [hteq, buildSection_markup] at hm
    exact sectionCore_params_of_markup _ _ _ _ hm
  · intro hm
    rw [hteq, buildSection_modifiers]
    rw [hteq, buildSection_markup] at hm
    rw [hm]
    exact sectionCore_mods_of_no_markup _ _ _

set_option maxRecDepth 100000 in
/-- C2 (witness). -/
theorem c2_witness :
    (sectionButtons.markup ≠ [] → sectionButtons.parameters = []) ∧
    (sectionButtons.markup = [] → sectionButtons.modifiers = []) :=
  c2_confirmed opts0 inputButtons [sectionButtons] sectionButtons rfl (by simp)

/-- C8 (counterexample): the stored raw text of a parsed section has its
comment markers stripped, so feeding it back through the parser finds no
comment blocks and yields no section at all — not an identical section. -/
theorem c8_counterexample :
    parseChunk opts0 inputButton = Except.ok [sectionButton] ∧
    sectionButton.raw = strL "Button\n\nstyleguide 1" ∧
    parseChunk opts0 sectionButton.raw = Except.ok [] :=
  ⟨rfl, rfl, rfl⟩

/-- C8 (amended): re-running the *per-block* section parser (paragraph
split onward) on a section's stored raw text with identical configuration
reproduces the identical section — the full parser instead finds no
comment block in the marker-stripped raw text. -/
theorem c8_amended :
    ∀ (opts : Options) (block : Str) (s : Section),
      processBlock opts block = Except.ok (some s) →
      processBlock opts s.raw = Except.ok (some s) := by
  intro opts block s h
  obtain ⟨ref, hne, hs⟩ := processBlock_ok_some opts block s h
  have hraw : s.raw = block := by rw [hs, buildSection_raw]
  rw [hraw]
  exact h

/-- C8 (witness). -/
theorem c8_witness : processBlock opts0 sectionBlockButton.raw =
    Except.ok (some sectionBlockButton) :=
  c8_amended opts0 blockButton sectionBlockButton rfl

/-! ### C3: the labeled-property extractor -/

/-- The scan loop leaves its accumulators untouched over a span with no
matching paragraph. -/
theorem ppGo_nomatch (nm : Str) (opts : Options) :
    ∀ (ps : List Str) (i : Nat) (v : Option Str) (idx : Option Nat),
      (∀ p ∈ ps, hasPrefixB opts nm p = false) → ppGo nm opts ps i v idx = (v, idx) := by
  intro ps
  induction ps with
  | nil => intro i v idx _; rfl
  | cons p rest ih =>
      intro i v idx h
      have hp : hasPrefixB opts nm p = false := h p (by simp)
      simp only [ppGo, hp, Bool.false_eq_true, if_false]
      exact ih (i + 1) v idx (fun q hq => h q (by simp [hq]))

/-- When the last matching paragraph sits at position `l.length`, the scan
ends with that paragraph's value and index, regardless of what came
before. -/
theorem ppGo_lastMatch (nm : Str) (opts : Options) :
    ∀ (l : List Str) (p : Str) (r : List Str) (i : Nat) (v : Option Str) (idx : Option Nat),
      hasPrefixB opts nm p = true → (∀ q ∈ r, hasPrefixB opts nm q = false) →
      ppGo nm opts (l ++ p :: r) i v idx =
        (some (stripLabelAll nm p), some (i + l.length)) := by
  intro l
  induction l with
  | nil =>
      intro p r i v idx hp hr
      simp only [List.nil_append, ppGo, hp, if_true]
      rw [ppGo_nomatch nm opts r (i + 1) _ _ hr]
      simp
  | cons a l ih =>
      intro p r i v idx hp hr
      simp only [List.cons_append, ppGo, List.append_eq]
      by_cases ha : hasPrefixB opts nm a = true
      · rw [if_pos ha, ih p r (i + 1) _ _ hp hr]
        simp only [List.length_cons, Prod.mk.injEq, Option.some.injEq, true_and]
        omega
      · rw [if_neg ha, ih p r (i + 1) v idx hp hr]
        simp only [List.length_cons, Prod.mk.injEq, Option.some.injEq, true_and]
        omega

/-- `splice(i, 1)` at the position of `p`. -/
theorem eraseIdx_at_append (l : List Str) (p : Str) (r : List Str) :
    (l ++ p :: r).eraseIdx l.length = l ++ r := by
  induction l with
  | nil => rfl
  | cons a l ih => simp only [List.cons_append, List.length_cons, List.eraseIdx_cons_succ, ih]

/-- C3 (counterexample): with two matching `weight` paragraphs the
extractor captures the value of the *second* (last) one and removes that
one — not the first, as the claim states. -/
theorem c3_counterexample :
    processProperty (strL "Weight") [strL "weight: 1", strL "weight: 2"] opts0
      = (some (strL "2"), [strL "weight: 1"]) ∧
    hasPrefixB opts0 (strL "weight") (strL "weight: 1") = true ∧
    hasPrefixB opts0 (strL "weight") (strL "weight: 2") = true :=
  ⟨rfl, rfl, rfl⟩

/-- C3 (amended): the property extractor captures the value of the *last*
matching paragraph, removes exactly that one paragraph, and leaves every
other paragraph — including earlier matching ones — untouched; when no
paragraph matches, the value is absent and the paragraph list is
unchanged. -/
theorem c3_amended :
    ∀ (opts : Options) (name : Str) (ps : List Str),
      ((∀ p ∈ ps, hasPrefixB opts (lowerStr name) p = false) →
          processProperty name ps opts = (none, ps)) ∧
      (∀ (l r : List Str) (p : Str), ps = l ++ p :: r →
          hasPrefixB opts (lowerStr name) p = true →
          (∀ q ∈ r, hasPrefixB opts (lowerStr name) q = false) →
          processProperty name ps opts =
            (some (stripLabelAll (lowerStr name) p), l ++ r)) := by
  intro opts name ps
  constructor
  · intro h
    simp only [processProperty]
    rw [ppGo_nomatch (lowerStr name) opts ps 0 none none h]
  · intro l r p hps hp hr
    subst hps
    simp only [processProperty]
    rw [ppGo_lastMatch (lowerStr name) opts l p r 0 none none hp hr]
    simp [eraseIdx_at_append]

/-- C3 (witness). -/
theorem c3_witness :
    processProperty (strL "Custom") [strL "plain"] opts0 = (none, [strL "plain"]) ∧
    processProperty (strL "Weight") [strL "weight: 7"] opts0 =
      (some (strL "7"), []) := by
  constructor
  · exact (c3_amended opts0 (strL "Custom") [strL "plain"]).1 (by decide)
  · have h := (c3_amended opts0 (strL "Weight") [strL "weight: 7"]).2
      [] [] (strL "weight: 7") rfl (by decide) (by simp)
    exact h.trans (by decide)

/-! ### C4: the modifier-candidacy scan -/

/-- A line matching the modifier pattern is non-empty. -/
theorem isModifierLine_ne_nil (l : Str) (h : isModifierLine l = true) : l ≠ [] := by
  intro hl
  subst hl
  simp [isModifierLine] at h

/-- The explicit-state loop, followed by the blank filter, computes the
specification's continuation-joining fold. -/
theorem mpGo_filter (ls : List Str) :
    ∀ (front : List Str) (cur : Str) (mid : List Str), cur ≠ [] → (∀ x ∈ mid, x = []) →
      (mpGo front cur mid ls).filter (fun l => decide (l ≠ [])) =
        front.filter (fun l => decide (l ≠ [])) ++ joinContSpec cur ls := by
  induction ls with
  | nil =>
      intro front cur mid hcur hmid
      have hmidf : mid.filter (fun l => decide (l ≠ [])) = [] := by
        rw [List.filter_eq_nil_iff]
        intro x hx
        simp [hmid x hx]
      have hcons : (cur :: mid).filter (fun l => decide (l ≠ [])) = [cur] := by
        rw [List.filter_cons, if_pos (decide_eq_true hcur), hmidf]
      simp only [mpGo, joinContSpec, List.filter_append, hcons]
  | cons l ls ih =>
      intro front cur mid hcur hmid
      have hmidf : mid.filter (fun l => decide (l ≠ [])) = [] := by
        rw [List.filter_eq_nil_iff]
        intro x hx
        simp [hmid x hx]
      have hcons : (cur :: mid).filter (fun l => decide (l ≠ [])) = [cur] := by
        rw [List.filter_cons, if_pos (decide_eq_true hcur), hmidf]
      by_cases hl : isModifierLine l = true
      · have hj : joinContSpec cur (l :: ls) = cur :: joinContSpec l ls := by
          simp only [joinContSpec]
          rw [if_pos hl]
        simp only [mpGo]
        rw [if_pos hl, ih (front ++ cur :: mid) l [] (isModifierLine_ne_nil l hl) (by simp),
          hj, List.filter_append, hcons]
        simp [List.append_assoc]
      · have hj : joinContSpec cur (l :: ls) = joinContSpec (cur ++ ' ' :: trimWs l) ls := by
          simp only [joinContSpec]
          rw [if_neg hl]
        simp only [mpGo]
        rw [if_neg hl, ih front (cur ++ ' ' :: trimWs l) (mid ++ [[]]) (by simp)
          (by intro x hx
              rcases List.mem_append.mp hx with h1 | h2
              · exact hmid x h1
              · simpa using h2), hj]

/-- The whole pass on a paragraph whose first line matches. -/
theorem modifierPass_match (l0 : Str) (ls : List Str) (h : isModifierLine l0 = true) :
    modifierPass (l0 :: ls) = (true, joinContSpec l0 ls) := by
  simp only [modifierPass]
  rw [if_pos h, mpGo_filter ls [] l0 [] (isModifierLine_ne_nil l0 h) (by simp)]
  rfl

/-- C4 (confirmed): when the first line of the candidate modifier
paragraph fails the entry-start pattern, the scan yields zero modifiers
and zero parameters and the whole paragraph is appended back onto the
description; when the first line matches, every later non-matching line
is trimmed and space-joined onto the most recently matched entry line and
removed from the line list (the `joinContSpec` fold). -/
theorem c4_confirmed :
    ∀ (opts : Options) (markupS desc para l0 : Str) (ls : List Str),
      splitNl para = l0 :: ls →
      ((isModifierLine l0 = false →
          processModifierParagraph opts markupS desc para =
            (desc ++ strL "\n\n" ++ para, [], [])) ∧
       (isModifierLine l0 = true →
          modifierPass (splitNl para) = (true, joinContSpec l0 ls))) := by
  intro opts markupS desc para l0 ls hsplit
  constructor
  · intro h0
    have hpass : (modifierPass (splitNl para)).1 = false := by
      rw [hsplit]
      simp only [modifierPass]
      rw [if_neg (by simp [h0])]
    simp only [processModifierParagraph]
    rw [if_neg (by simp [hpass])]
  · intro h0
    rw [hsplit]
    exact modifierPass_match l0 ls h0

/-- C4 (witness). -/
theorem c4_witness :
    processModifierParagraph opts0 (strL "<b>") (strL "D") (strL "plain prose") =
      (strL "D" ++ strL "\n\n" ++ strL "plain prose", [], []) ∧
    modifierPass (splitNl (strL ":hover - x\n  more words")) =
      (true, joinContSpec (strL ":hover - x") [strL "  more words"]) := by
  constructor
  · exact (c4_confirmed opts0 (strL "<b>") (strL "D") (strL "plain prose")
      (strL "plain prose") [] rfl).1 (by decide)
  · exact (c4_confirmed opts0 [] [] (strL ":hover - x\n  more words")
      (strL ":hover - x") [strL "  more words"] rfl).2 (by decide)

/-! ### C5: the reference detector -/

/-- The head of a `dropWhile` remainder fails the predicate. -/
theorem dropWhile_head_false (p : Char → Bool) :
    ∀ (l : Str) (c : Char) (r : Str), l.dropWhile p = c :: r → p c = false := by
  intro l
  induction l with
  | nil => intro c r h; simp at h
  | cons d t ih =>
      intro c r h
      by_cases hd : p d = true
      · rw [List.dropWhile_cons_of_pos hd] at h
        exact ih c r h
      · rw [List.dropWhile_cons_of_neg hd] at h
        cases h
        simpa using hd

/-- `dropWhile` over a list whose final element fails the predicate keeps
that element at the end. -/
theorem dropWhile_append_singleton (p : Char → Bool) (c : Char) (hc : p c = false) :
    ∀ (l : Str), ∃ t, List.dropWhile p (l ++ [c]) = t ++ [c] := by
  intro l
  induction l with
  | nil =>
      refine ⟨[], ?_⟩
      simp [List.dropWhile, hc]
  | cons d t ih =>
      by_cases hd : p d = true
      · rw [List.cons_append, List.dropWhile_cons_of_pos hd]
        exact ih
      · exact ⟨d :: t, by rw [List.cons_append, List.dropWhile_cons_of_neg hd]⟩

/-- A trimmed string is empty or starts with non-whitespace. -/
theorem trimWs_cases (s : Str) :
    trimWs s = [] ∨ ∃ c r, trimWs s = c :: r ∧ jsWs c = false := by
  unfold trimWs dropTrailingWs
  cases hdw : s.dropWhile jsWs with
  | nil => left; simp
  | cons c m =>
      right
      have hc : jsWs c = false := dropWhile_head_false jsWs s c m hdw
      obtain ⟨t, ht⟩ := dropWhile_append_singleton jsWs c hc m.reverse
      rw [List.reverse_cons, ht, List.reverse_append]
      exact ⟨c, t.reverse, by simp, hc⟩

/-- The first field of `split(/\s+/)` on a string starting with
non-whitespace is non-empty (it starts with that character). -/
theorem splitWsF_head_cons (c : Char) (r : Str) (hc : jsWs c = false) :
    ∃ t, (splitWsF (c :: r)).headD [] = c :: t := by
  unfold splitWsF
  rw [List.foldr_cons]
  rcases hsw : r.foldr swStep (false, [[]]) with ⟨b, fs⟩
  simp only [swStep, hc, Bool.false_eq_true, if_false]
  cases fs with
  | nil => exact ⟨[], rfl⟩
  | cons f fs2 => exact ⟨f, rfl⟩

/-- C5 (confirmed): on any non-empty paragraph list, `checkReference`
computes exactly the specification's detector: absent when the trimmed
last paragraph has fewer than two whitespace-separated words; otherwise
the remaining words rejoined with single spaces when the first word — or
the concatenation of the first two words — passes the (optionally
phonetic) "styleguide" keyword test after ignoring one trailing `:` or
`-`; absent in all other cases.  (On an empty paragraph list the source
throws a `TypeError`, modelled by `Except.error`.) -/
theorem c5_confirmed :
    ∀ (opts : Options) (ps : List Str), ps ≠ [] →
      checkReference ps opts = Except.ok (detectReferenceSpec opts ps) := by
  intro opts ps hps
  obtain ⟨lp, hlp⟩ : ∃ lp, ps.getLast? = some lp := by
    rcases hq : ps.getLast? with _ | lp
    · exact absurd (List.getLast?_eq_none_iff.mp hq) hps
    · exact ⟨lp, rfl⟩
  unfold checkReference detectReferenceSpec
  rw [hlp]
  simp only [Option.getD_some]
  by_cases hlen : (splitWsF (trimWs lp)).length < 2
  · rw [if_pos hlen, if_pos hlen]
  · rw [if_neg hlen, if_neg hlen]
    have hne : (splitWsF (trimWs lp)).headD [] ≠ [] := by
      rcases trimWs_cases lp with h0 | ⟨c, r, hcr, hc⟩
      · rw [h0] at hlen
        simp [splitWsF] at hlen
      · rw [hcr]
        obtain ⟨t, ht⟩ := splitWsF_head_cons c r hc
        rw [ht]
        simp
    by_cases hm0 : refWordMatch opts ((splitWsF (trimWs lp)).headD []) = true
    · rw [if_pos hm0, if_pos hm0, if_pos hne]
    · rw [if_neg hm0, if_neg hm0]
      by_cases hm1 : refWordMatch opts
          ((splitWsF (trimWs lp)).headD [] ++ (splitWsF (trimWs lp)).getD 1 []) = true
      · rw [if_pos hm1, if_pos hm1,
          if_pos (by simp : (splitWsF (trimWs lp)).headD [] ++
            ' ' :: (splitWsF (trimWs lp)).getD 1 [] ≠ [])]
      · rw [if_neg hm1, if_neg hm1]

/-- C5 (witness). -/
theorem c5_witness :
    checkReference [strL "Styleguide 4.2"] opts0 =
      Except.ok (detectReferenceSpec opts0 [strL "Styleguide 4.2"]) :=
  c5_confirmed opts0 [strL "Styleguide 4.2"] (by simp)

/-! ### C6: header/description separation -/

/-- Characterisation of the lazy anchored search `^.*?\n{2,}`: it succeeds
exactly when the segment before the first newline is immediately followed
by a second newline, and then removes that segment together with the whole
newline run. -/
theorem hsGo_eq (d : Str) :
    hsGo d =
      (if (List.dropWhile (fun c => c != '\n') d).take 2 = ['\n', '\n'] then
         some (List.dropWhile (fun c => c == '\n') (List.dropWhile (fun c => c != '\n') d))
       else none) := by
  induction d with
  | nil => simp [hsGo]
  | cons c rest ih =>
      cases rest with
      | nil =>
          by_cases hc : c = '\n'
          · subst hc
            rw [List.dropWhile_cons_of_neg (by simp)]
            simp [hsGo]
          · rw [List.dropWhile_cons_of_pos (by simp [hc])]
            simp [hsGo]
      | cons d2 r2 =>
          by_cases hc : c = '\n'
          · subst hc
            rw [List.dropWhile_cons_of_neg (by simp)]
            by_cases hd : d2 = '\n'
            · subst hd
              rw [if_pos (show List.take 2 ('\n' :: '\n' :: r2) = ['\n', '\n'] from rfl),
                List.dropWhile_cons_of_pos (by simp), List.dropWhile_cons_of_pos (by simp)]
              rfl
            · rw [if_neg (by
                  rw [show List.take 2 ('\n' :: d2 :: r2) = ['\n', d2] from rfl]
                  simp [hd])]
              simp only [hsGo]
              rw [if_pos trivial, if_neg hd]
          · rw [List.dropWhile_cons_of_pos (by simp [hc])]
            simp only [hsGo]
            rw [if_neg hc, ih]

/-- If the first newline is doubled, the string contains a blank-line
boundary. -/
theorem take2_hasDoubleNl (d : Str)
    (h : (List.dropWhile (fun c => c != '\n') d).take 2 = ['\n', '\n']) :
    hasDoubleNl d = true := by
  induction d with
  | nil => simp at h
  | cons c rest ih =>
      by_cases hc : c = '\n'
      · subst hc
        rw [List.dropWhile_cons_of_neg (by simp)] at h
        cases rest with
        | nil => simp at h
        | cons c2 r2 =>
            rw [show List.take 2 ('\n' :: c2 :: r2) = ['\n', c2] from rfl] at h
            have hc2 : c2 = '\n' := by simpa using h
            subst hc2
            simp [hasDoubleNl]
      · rw [List.dropWhile_cons_of_pos (by simp [hc])] at h
        have hr := ih h
        cases rest with
        | nil => exact absurd hr (by simp [hasDoubleNl])
        | cons c2 r2 => simp [hasDoubleNl, hr]

/-- C6 (counterexample): a section whose first description paragraph spans
two lines — `match(/\n{2,}/)` sees the blank-line boundary, but the
anchored lazy `^.*?\n{2,}` cannot cross the first newline, so nothing at
all is dropped from the description (the claim requires `"C"`). -/
theorem c6_counterexample :
    parseChunk opts0 inputMultiHdr = Except.ok [sectionMultiHdr] ∧
    sectionMultiHdr.description = strL "A\nB\n\nC" ∧
    hasDoubleNl sectionMultiHdr.description = true ∧
    sectionMultiHdr.description ≠ strL "C" :=
  ⟨rfl, rfl, rfl, by decide⟩

/-- C6 (amended): with header separation enabled, the parser drops
everything up through the first blank-line boundary *only when the text
before that boundary contains no newline* (then the whole newline run is
dropped as well); when the segment before the first boundary spans
several lines the description is left completely unchanged; and when the
description contains no blank-line boundary it becomes empty. -/
theorem c6_amended :
    ∀ (opts : Options) (d : Str), opts.header = true →
      applyHeaderOption opts d =
        (if (List.dropWhile (fun c => c != '\n') d).take 2 = ['\n', '\n'] then
           List.dropWhile (fun c => c == '\n') (List.dropWhile (fun c => c != '\n') d)
         else if hasDoubleNl d then d else []) := by
  intro opts d hh
  unfold applyHeaderOption stripFirstParagraph
  rw [hh]
  simp only [if_true]
  by_cases hc : (List.dropWhile (fun c => c != '\n') d).take 2 = ['\n', '\n']
  · simp [hsGo_eq d, hc, take2_hasDoubleNl d hc]
  · by_cases hd : hasDoubleNl d = true
    · simp [hsGo_eq d, hc, hd]
    · simp [hsGo_eq d, hc, hd]

/-- C6 (witness). -/
theorem c6_witness :
    applyHeaderOption opts0 (strL "Header\n\n\nBody text") =
      (if (List.dropWhile (fun c => c != '\n') (strL "Header\n\n\nBody text")).take 2 =
          ['\n', '\n'] then
         List.dropWhile (fun c => c == '\n')
           (List.dropWhile (fun c => c != '\n') (strL "Header\n\n\nBody text"))
       else if hasDoubleNl (strL "Header\n\n\nBody text") then strL "Header\n\n\nBody text"
       else []) :=
  c6_amended opts0 (strL "Header\n\n\nBody text") rfl

/-! ### C7: indentation stripping inside a generic multi-line block -/

/-- Inside a multi-line block with a captured baseline, a non-closing,
non-opening line appends exactly its once-baseline-stripped form. -/
theorem fbStep_multi_some (st : FBState) (rawLine : Str) (b : Str)
    (h1 : st.insideMultiBlock = true) (h2 : st.insideDocblock = false)
    (h3 : st.insideSingleBlock = false) (h4 : st.indentAmount = some b)
    (hf : isMultiFinish (dropTrailingWs rawLine) = false)
    (hd : isDocStart (dropTrailingWs rawLine) = false)
    (hm : isMultiStart (dropTrailingWs rawLine) = false) :
    fbStep st rawLine =
      { st with currentBlock :=
          st.currentBlock ++ '\n' :: replacePrefixOnce b (dropTrailingWs rawLine) } := by
  simp [fbStep, h1, h2, h3, h4, hf, hd, hm]

/-- A whole run of ordinary interior lines appends each line's stripped
form, with the baseline applied once per line. -/
theorem fbGo_multi_run (b : Str) :
    ∀ (ls : List Str) (st : FBState),
      st.insideMultiBlock = true → st.insideDocblock = false →
      st.insideSingleBlock = false → st.indentAmount = some b →
      (∀ l ∈ ls, isMultiFinish (dropTrailingWs l) = false ∧
        isDocStart (dropTrailingWs l) = false ∧ isMultiStart (dropTrailingWs l) = false) →
      fbGo st ls =
        { st with currentBlock := st.currentBlock ++
            catMap (fun l => '\n' :: replacePrefixOnce b (dropTrailingWs l)) ls } := by
  intro ls
  induction ls with
  | nil =>
      intro st h1 h2 h3 h4 hls
      simp [fbGo, catMap]
  | cons l ls ih =>
      intro st h1 h2 h3 h4 hls
      have hstep := fbStep_multi_some st l b h1 h2 h3 h4
        (hls l (by simp)).1 (hls l (by simp)).2.1 (hls l (by simp)).2.2
      have hrun : fbGo st (l :: ls) = fbGo (fbStep st l) ls := rfl
      rw [hrun, hstep,
        ih { st with currentBlock :=
            st.currentBlock ++ '\n' :: replacePrefixOnce b (dropTrailingWs l) }
          (by simp [h1]) (by simp [h2]) (by simp [h3]) (by simp [h4])
          (fun x hx => hls x (by simp [hx]))]
      simp [catMap, List.append_assoc]

/-- C7 (confirmed): inside a generic multi-line block (i) a blank line
before any baseline is captured is skipped entirely; (ii) the first
non-blank interior line's leading whitespace run is captured as the
baseline and the very same line is stripped once; (iii) every subsequent
ordinary interior line has exactly one occurrence of the baseline prefix
removed; and (iv) a line not starting with the literal baseline prefix is
left completely unmodified, while a matching line loses exactly the
baseline-length prefix. -/
theorem c7_confirmed :
    (∀ (st : FBState) (l : Str),
        st.insideMultiBlock = true → st.insideDocblock = false →
        st.insideSingleBlock = false → st.indentAmount = none →
        dropTrailingWs l = [] → fbStep st l = st) ∧
    (∀ (st : FBState) (l : Str),
        st.insideMultiBlock = true → st.insideDocblock = false →
        st.insideSingleBlock = false → st.indentAmount = none →
        dropTrailingWs l ≠ [] →
        isMultiFinish (dropTrailingWs l) = false →
        isDocStart (dropTrailingWs l) = false →
        isMultiStart (dropTrailingWs l) = false →
        fbStep st l =
          { st with
              indentAmount := some ((dropTrailingWs l).takeWhile jsWs),
              currentBlock := st.currentBlock ++
                '\n' :: replacePrefixOnce ((dropTrailingWs l).takeWhile jsWs)
                  (dropTrailingWs l) }) ∧
    (∀ (b : Str) (ls : List Str) (st : FBState),
        st.insideMultiBlock = true → st.insideDocblock = false →
        st.insideSingleBlock = false → st.indentAmount = some b →
        (∀ l ∈ ls, isMultiFinish (dropTrailingWs l) = false ∧
          isDocStart (dropTrailingWs l) = false ∧
          isMultiStart (dropTrailingWs l) = false) →
        fbGo st ls =
          { st with currentBlock := st.currentBlock ++
              catMap (fun l => '\n' :: replacePrefixOnce b (dropTrailingWs l)) ls }) ∧
    (∀ (b l : Str), isPre b l = false → replacePrefixOnce b l = l) ∧
    (∀ (b l : Str), isPre b l = true → replacePrefixOnce b l = l.drop b.length) := by
  refine ⟨?_, ?_, fbGo_multi_run, ?_, ?_⟩
  · intro st l h1 h2 h3 h4 hblank
    have e1 : isSingleLine [] = false := rfl
    have e2 : isMultiFinish [] = false := rfl
    have e3 : isDocStart [] = false := rfl
    have e4 : isMultiStart [] = false := rfl
    simp [fbStep, h1, h2, h3, h4, hblank, e1, e2, e3, e4]
  · intro st l h1 h2 h3 h4 hne hf hd hm
    simp [fbStep, h1, h2, h3, h4, hne, hf, hd, hm]
  · intro b l h
    simp [replacePrefixOnce, h]
  · intro b l h
    simp [replacePrefixOnce, h]

/-- C7 (witness). -/
theorem c7_witness :
    fbGo stOpenMulti [strL "    a", strL " b"] =
      { stOpenMulti with currentBlock := (stOpenMulti.currentBlock ++
          catMap (fun l => '\n' :: replacePrefixOnce [' ', ' '] (dropTrailingWs l))
            [strL "    a", strL " b"]) } ∧
    replacePrefixOnce [' ', ' '] (strL " b") = strL " b" ∧
    replacePrefixOnce [' ', ' '] (strL "    a") = (strL "    a").drop 2 := by
  refine ⟨c7_confirmed.2.2.1 [' ', ' '] [strL "    a", strL " b"] stOpenMulti
      rfl rfl rfl rfl (by decide), ?_, ?_⟩
  · exact c7_confirmed.2.2.2.1 [' ', ' '] (strL " b") (by decide)
  · exact c7_confirmed.2.2.2.2 [' ', ' '] (strL "    a") (by decide)

/-! ### C9: the modifier/parameter entry builders -/

/-- A list is a prefix of itself followed by anything. -/
theorem isPre_self_append (p t : Str) : isPre p (p ++ t) = true := by
  induction p with
  | nil => rfl
  | cons c p ih => simp [isPre, ih]

/-- Removing the first occurrence of a prefix removes exactly that
prefix. -/
theorem replaceFirstOcc_self_append (p t : Str) :
    replaceFirstOcc p (p ++ t) = t := by
  cases p with
  | nil =>
      cases t with
      | nil => rfl
      | cons c r =>
          simp only [List.nil_append, replaceFirstOcc, isPre, if_true]
          rfl
  | cons c p2 =>
      rw [List.cons_append]
      simp only [replaceFirstOcc]
      rw [if_pos (by rw [← List.cons_append]; exact isPre_self_append (c :: p2) t),
        ← List.cons_append, List.drop_left]

/-- `takeWhile` of a whitespace run followed by a hyphen is the run. -/
theorem takeWhile_ws_hyphen (w rest : Str) (hw : ∀ c ∈ w, jsWs c = true) :
    List.takeWhile jsWs (w ++ '-' :: rest) = w := by
  induction w with
  | nil =>
      rw [List.nil_append, List.takeWhile_cons_of_neg (by decide)]
  | cons c w ih =>
      rw [List.cons_append, List.takeWhile_cons_of_pos (hw c (by simp))]
      rw [ih (fun x hx => hw x (by simp [hx]))]

/-- `dropWhile` of a whitespace run followed by a hyphen. -/
theorem dropWhile_ws_hyphen (w rest : Str) (hw : ∀ c ∈ w, jsWs c = true) :
    List.dropWhile jsWs (w ++ '-' :: rest) = '-' :: rest := by
  induction w with
  | nil =>
      rw [List.nil_append, List.dropWhile_cons_of_neg (by decide)]
  | cons c w ih =>
      rw [List.cons_append, List.dropWhile_cons_of_pos (hw c (by simp))]
      exact ih (fun x hx => hw x (by simp [hx]))

/-- The separator pattern matches at the start of
`whitespace-run ++ '-' ++ whitespace ++ ...`. -/
theorem wsHyphenAt_sep (w : Str) (c : Char) (r2 : Str)
    (hwne : w ≠ []) (hw : ∀ x ∈ w, jsWs x = true) (hc : jsWs c = true) :
    wsHyphenAt (w ++ '-' :: c :: r2) = true := by
  unfold wsHyphenAt
  rw [takeWhile_ws_hyphen w (c :: r2) hw, dropWhile_ws_hyphen w (c :: r2) hw]
  simp [hwne, hc]

/-- The first field of the split stops exactly at the first separator
position. -/
theorem entryName_of_first_sep (pre tail : Str)
    (hpre : ∀ i, i < pre.length → wsHyphenAt ((pre ++ tail).drop i) = false)
    (htail : wsHyphenAt tail = true) :
    entryName (pre ++ tail) = pre := by
  induction pre with
  | nil =>
      cases tail with
      | nil => simp [wsHyphenAt] at htail
      | cons c r =>
          rw [List.nil_append]
          simp only [entryName]
          rw [if_pos htail]
  | cons a pre ih =>
      rw [List.cons_append]
      simp only [entryName]
      rw [if_neg (by
        have h0 := hpre 0 (by simp)
        rw [List.drop_zero, List.cons_append] at h0
        simp [h0])]
      rw [ih (fun i hi => by
        have hi1 := hpre (i + 1) (by simp; omega)
        rw [List.cons_append] at hi1
        simpa using hi1)]

/-- No separator position at all: the whole entry is the name. -/
theorem entryName_of_no_sep (entry : Str)
    (h : ∀ i, wsHyphenAt (entry.drop i) = false) :
    entryName entry = entry := by
  induction entry with
  | nil => rfl
  | cons c r ih =>
      simp only [entryName]
      rw [if_neg (by have h0 := h 0; rw [List.drop_zero] at h0; simp [h0])]
      rw [ih (fun i => by have hi := h (i + 1); simpa using hi)]

/-- Stripping the leading separator from
`whitespace-run ++ '-' ++ whitespace ++ rest`. -/
theorem stripLeadingSep_sep (w : Str) (c : Char) (r2 : Str)
    (hwne : w ≠ []) (hw : ∀ x ∈ w, jsWs x = true) (hc : jsWs c = true) :
    stripLeadingSep (w ++ '-' :: c :: r2) = List.dropWhile jsWs (c :: r2) := by
  unfold stripLeadingSep
  rw [if_pos (wsHyphenAt_sep w c r2 hwne hw hc), dropWhile_ws_hyphen w (c :: r2) hw]
  rfl

/-- C9 (counterexample): the builders do *not* trim the left part — a
leading-whitespace name survives (`"  a"`, where the claim requires
`"a"`). -/
theorem c9_counterexample :
    createModifiers [strL "  a - b"] opts0 = [(strL "  a", strL "b")] ∧
    createParameters [strL "  a - b"] opts0 = [(strL "  a", strL "b")] ∧
    trimWs (strL "  a") = strL "a" ∧ strL "  a" ≠ strL "a" :=
  ⟨rfl, rfl, rfl, by decide⟩

/-- C9 (amended): both builders map each line — order preserved, no
de-duplication — to an entry whose name is the *untrimmed* left part
(the characters strictly before the first `whitespace-hyphen-whitespace`
separator occurrence, kept exactly as they appear, or the whole line when
no separator occurs) and whose description is the right part after the
separator's greedy whitespace run, optionally inline-rendered. -/
theorem c9_amended :
    (∀ (opts : Options) (lines : List Str),
        createModifiers lines opts = createParameters lines opts ∧
        createModifiers lines opts =
          lines.map (fun entry =>
            (entryName entry,
             if opts.markdown then
               opts.markedInline (stripLeadingSep (replaceFirstOcc (entryName entry) entry))
             else stripLeadingSep (replaceFirstOcc (entryName entry) entry)))) ∧
    (∀ (opts : Options) (pre w : Str) (c : Char) (r2 : Str),
        (∀ i, i < pre.length →
          wsHyphenAt ((pre ++ w ++ '-' :: c :: r2).drop i) = false) →
        w ≠ [] → (∀ x ∈ w, jsWs x = true) → jsWs c = true →
        createModifiers [pre ++ w ++ '-' :: c :: r2] opts =
          [(pre,
            if opts.markdown then opts.markedInline (List.dropWhile jsWs (c :: r2))
            else List.dropWhile jsWs (c :: r2))]) ∧
    (∀ (opts : Options) (entry : Str),
        (∀ i, wsHyphenAt (entry.drop i) = false) →
        createModifiers [entry] opts =
          [(entry, if opts.markdown then opts.markedInline [] else [])]) := by
  refine ⟨?_, ?_, ?_⟩
  · intro opts lines
    exact ⟨rfl, rfl⟩
  · intro opts pre w c r2 hpre hwne hw hc
    have hname : entryName (pre ++ w ++ '-' :: c :: r2) = pre := by
      rw [List.append_assoc] at hpre ⊢
      exact entryName_of_first_sep pre (w ++ '-' :: c :: r2) hpre
        (wsHyphenAt_sep w c r2 hwne hw hc)
    simp only [createModifiers, List.map_cons, List.map_nil, hname]
    rw [List.append_assoc, replaceFirstOcc_self_append pre (w ++ '-' :: c :: r2),
      stripLeadingSep_sep w c r2 hwne hw hc]
  · intro opts entry h
    have hname : entryName entry = entry := entryName_of_no_sep entry h
    have hrepl : replaceFirstOcc entry entry = [] := by
      have hr := replaceFirstOcc_self_append entry []
      rwa [List.append_nil] at hr
    simp only [createModifiers, List.map_cons, List.map_nil, hname, hrepl]
    rfl

/-- C9 (witness). -/
theorem c9_witness :
    createModifiers [strL ":hover - nice"] opts0 = createParameters [strL ":hover - nice"] opts0 ∧
    createModifiers [strL ":hover" ++ [' '] ++ '-' :: ' ' :: strL "nice"] opts0 =
      [(strL ":hover", List.dropWhile jsWs (' ' :: strL "nice"))] ∧
    createModifiers [strL "nosep"] opts0 = [(strL "nosep", [])] := by
  refine ⟨(c9_amended.1 opts0 [strL ":hover - nice"]).1, ?_, ?_⟩
  · exact c9_amended.2.1 opts0 (strL ":hover") [' '] ' ' (strL "nice")
      (by decide) (by decide) (by decide) (by decide)
  · have h := c9_amended.2.2 opts0 (strL "nosep") (by
      intro i
      rcases Nat.lt_or_ge i 5 with hi | hi
      · interval_cases i <;> decide
      · rw [List.drop_eq_nil_of_le (le_trans (by decide : (strL "nosep").length ≤ 5) hi)]
        decide)
    simpa using h

/-! ### C10: flushing an unterminated comment block -/

/-- C10 (confirmed): when the input ends while a multi-line or doc block
is still open and text has been accumulated, the final `if (currentBlock)`
flush still emits the accumulated interior text (with leading/trailing
newline runs trimmed) as the last block instead of discarding it; e.g.
`/*`-opened and `/**`-opened inputs with no closer still produce their
interior text. -/
theorem c10_confirmed :
    (∀ st : FBState, st.insideMultiBlock = true ∨ st.insideDocblock = true →
        st.currentBlock ≠ [] →
        fbFinish st = st.blocks ++ [trimNlEnds st.currentBlock]) ∧
    findBlocks (strL "/*\nfoo") = [strL "foo"] ∧
    findBlocks (strL "/**\nbar") = [strL "bar"] := by
  refine ⟨?_, rfl, rfl⟩
  intro st _ hne
  simp [fbFinish, hne]

/-- C10 (witness). -/
theorem c10_witness :
    fbFinish stOpenMulti = stOpenMulti.blocks ++ [trimNlEnds stOpenMulti.currentBlock] :=
  c10_confirmed.1 stOpenMulti (Or.inl rfl) (by decide)

end KssParse
